import Mathlib

/-!
Shallow embedding of the RAM filesystem directory node
(`src/arceos/axfs_ramfs/src/dir.rs`) and its path-parsing helpers.

Modelling choices:

* Paths and names are `List Char` (Rust `&str` slices of ASCII path text);
  `split_path` and `split_parent` are translated from the two free functions
  at the bottom of `dir.rs` (`trim_start_matches('/')` is "drop every leading
  slash", `find('/')` plus slicing is "break at the first slash").
* A node (`RamNode`) is either a file or a directory holding an ordered
  association list of `(name, node)` children, mirroring the
  `BTreeMap<String, VfsNodeRef>`; `insertChild` keeps the byte-wise key
  order and replaces an existing key, exactly as `BTreeMap::insert` does.
* The cyclic `this` / `parent` `Arc`/`Weak` structure is embedded as a
  zipper: a focused node together with the stack of frames (`Ctx`) leading
  back to the root.  In every state reachable by the public operations the
  stored parent back-reference of a directory equals its actual parent in
  the tree (`DirNode::new` sets it to the creating directory, `set_parent`
  is never called, and the implemented `rename` never moves a node between
  directories), so resolving the `parent` weak pointer is resolving the
  enclosing zipper frame.
* Recursive descent (`lookup`, `create`, `remove`) consumes the path one
  `split_path` step at a time.  To keep every definition kernel-evaluable
  the component sequence produced by iterating `split_path` is computed
  first (`pathParts`, structurally recursive), and the operations recurse
  over that list; the theorem `pathParts_split` proves that this sequence
  is exactly what iterated `split_path` yields, so the unfolding of each
  operation matches the source's recursion step for step.
* Mutating operations return the updated root tree (`plugAll` re-plugs the
  zipper); an error result leaves no tree behind, which models the source's
  early returns that perform no mutation.
-/

namespace RamFs

/-- Error kinds of the external shared error vocabulary (`VfsError`). -/
inductive VfsError where
  | NotFound
  | AlreadyExists
  | NotADirectory
  | Unsupported
  | DirectoryNotEmpty
  | InvalidInput
deriving DecidableEq, Repr

/-- Node types (`VfsNodeType`); the directory code distinguishes only
`File`, `Dir` and "anything else". -/
inductive VfsNodeType where
  | Fifo
  | CharDevice
  | BlockDevice
  | Dir
  | File
  | SymLink
  | Socket
deriving DecidableEq, Repr

abbrev Name := List Char

abbrev Path := List Char

/-- `path.trim_start_matches('/')`: drop every leading slash. -/
def skipSlashes : Path → Path
  | [] => []
  | c :: rest => if c = '/' then skipSlashes rest else c :: rest

/-- `trimmed.find('/')` plus slicing: the text before the first slash, and
the text after it (`none` when no slash remains). -/
def breakSlash : Path → Name × Option Path
  | [] => ([], none)
  | c :: rest =>
    if c = '/' then ([], some rest)
    else (c :: (breakSlash rest).1, (breakSlash rest).2)

/-- `split_path` from `dir.rs`: trim the leading slashes, then split at the
first remaining slash. -/
def split_path (p : Path) : Name × Option Path :=
  breakSlash (skipSlashes p)

/-- The sequence of components produced by iterating `split_path` down the
recursion of `lookup` / `create` / `remove`, computed structurally.
`none` means the scanner is before a component (leading slashes are being
skipped); `some acc` holds the reversed characters read so far. -/
def partsAux : Option Name → Path → List Name
  | none, [] => [[]]
  | some acc, [] => [acc.reverse]
  | none, c :: rest =>
    if c = '/' then partsAux none rest else partsAux (some [c]) rest
  | some acc, c :: rest =>
    if c = '/' then acc.reverse :: partsAux none rest
    else partsAux (some (c :: acc)) rest

/-- All components of a path, in descent order. -/
def pathParts (p : Path) : List Name :=
  partsAux none p

/-- `path.trim_end_matches('/')`: drop every trailing slash. -/
def trimEndSlashes (p : Path) : Path :=
  (skipSlashes p.reverse).reverse

/-- Index of the last slash (`trimmed.rfind('/')`). -/
def rfindSlashAux : Path → Nat → Option Nat → Option Nat
  | [], _, best => best
  | c :: rest, i, best =>
    rfindSlashAux rest (i + 1) (if c = '/' then some i else best)

/-- Index of the last slash in a path, if any. -/
def rfindSlash (p : Path) : Option Nat :=
  rfindSlashAux p 0 none

/-- `split_parent` from `dir.rs`: trim trailing slashes, split at the last
remaining slash into parent path and leaf name; a path with no slash at all
is rejected with `InvalidInput`. -/
def split_parent (p : Path) : Except VfsError (Path × Name) :=
  let t := trimEndSlashes p
  match rfindSlash t with
  | some pos =>
    if pos > 0 then .ok (t.take pos, t.drop (pos + 1))
    else .ok (['/'], t.drop 1)
  | none => .error .InvalidInput

/-- A tree node: `FileNode` or `DirNode` with its ordered children map. -/
inductive RamNode where
  | file : RamNode
  | dir : List (Name × RamNode) → RamNode

abbrev Children := List (Name × RamNode)

/-- `BTreeMap::get`: the value stored under a key. -/
def getChild (k : Name) : Children → Option RamNode
  | [] => none
  | (k', v) :: rest => if k' = k then some v else getChild k rest

/-- Byte-wise (lexicographic) strict order on names, the `BTreeMap` key
order. -/
def ltName : Name → Name → Bool
  | [], [] => false
  | [], _ :: _ => true
  | _ :: _, [] => false
  | a :: as, b :: bs =>
    if a < b then true else if b < a then false else ltName as bs

/-- `BTreeMap::insert`: keep the key order, replace an existing key. -/
def insertChild (k : Name) (v : RamNode) : Children → Children
  | [] => [(k, v)]
  | (k', v') :: rest =>
    if ltName k k' then (k, v) :: (k', v') :: rest
    else if k = k' then (k, v) :: rest
    else (k', v') :: insertChild k v rest

/-- `BTreeMap::remove`: erase the entry stored under a key. -/
def eraseChild (k : Name) : Children → Children
  | [] => []
  | (k', v) :: rest => if k' = k then rest else (k', v) :: eraseChild k rest

/-- Locate a key in a children list, returning the siblings to its left,
the stored node, and the siblings to its right. -/
def splitChildren (k : Name) : Children → Option (Children × RamNode × Children)
  | [] => none
  | (k', v) :: rest =>
    if k' = k then some ([], v, rest)
    else
      match splitChildren k rest with
      | some (l, n, r) => some ((k', v) :: l, n, r)
      | none => none

/-- One zipper frame: the focused node sits under `name` in its parent,
between the siblings `left` and `right`. -/
structure Frame where
  name : Name
  left : Children
  right : Children

/-- The stack of frames from the focused node back to the root; `[]` means
the focus is the root (its parent weak reference is empty). -/
abbrev Ctx := List Frame

/-- Put a node back into its enclosing directory. -/
def plug1 (f : Frame) (n : RamNode) : RamNode :=
  .dir (f.left ++ (f.name, n) :: f.right)

/-- Rebuild the root tree from a focused node and its context. -/
def plugAll : Ctx → RamNode → RamNode
  | [], n => n
  | f :: fs, n => plugAll fs (plug1 f n)

/-- Modelled from the spec: `FileNode` (`src/file.rs`, not provided under
`src/`) implements the generic node interface through the shared
non-directory default methods, so the directory operations `lookup`,
`create` and `remove` invoked on a file fail with `NotADirectory`
("a non-directory node was treated as a directory during descent"). -/
def nonDirDefault {α : Type} : Except VfsError α :=
  .error .NotADirectory

/-- Modelled from the spec: the File Node's attribute record reports
type File (its byte store is an external detail). -/
def fileAttrKind : VfsNodeType := .File

/-- The file type reported by `get_attr().file_type()` for each node;
`DirNode::get_attr` returns a directory attribute record. -/
def nodeTypeOf : RamNode → VfsNodeType
  | .file => fileAttrKind
  | .dir _ => .Dir

/-- Resolution of one path component inside `DirNode::lookup`: `""` or `"."`
is the node itself, `".."` is the parent (or `NotFound` at the root), and
any other name is the matching child (or `NotFound`). -/
def resolveStep (ctx : Ctx) (cs : Children) (name : Name) :
    Except VfsError (Ctx × RamNode) :=
  if name = [] ∨ name = ['.'] then .ok (ctx, .dir cs)
  else if name = ['.', '.'] then
    match ctx with
    | [] => .error .NotFound
    | f :: fs => .ok (fs, plug1 f (.dir cs))
  else
    match splitChildren name cs with
    | some (l, n, r) => .ok (⟨name, l, r⟩ :: ctx, n)
    | none => .error .NotFound

/-- `DirNode::lookup`, descending over the component list: resolve the
first component, then recurse with the remainder if one exists, otherwise
the resolved node is the result. -/
def lookupParts : Ctx → RamNode → List Name → Except VfsError (Ctx × RamNode)
  | _, .file, _ => nonDirDefault
  | ctx, .dir cs, [] => .ok (ctx, .dir cs)
  | ctx, .dir cs, name :: rest =>
    match resolveStep ctx cs name with
    | .error e => .error e
    | .ok (ctx', n) =>
      match rest with
      | [] => .ok (ctx', n)
      | _ :: _ => lookupParts ctx' n rest

/-- `DirNode::lookup` on a path string. -/
def lookup (ctx : Ctx) (node : RamNode) (p : Path) :
    Except VfsError (Ctx × RamNode) :=
  lookupParts ctx node (pathParts p)

/-- Continuation of `lookup` after the first component has been resolved:
recurse when a remainder exists, otherwise return the resolved node. -/
def lookupRest (ctx : Ctx) (node : RamNode) : Option Path →
    Except VfsError (Ctx × RamNode)
  | none => .ok (ctx, node)
  | some r => lookup ctx node r

/-- Leaf names the path-walking operations treat specially
(`name.is_empty() || name == "." || name == ".."`). -/
def isSpecial (n : Name) : Bool :=
  decide (n = []) || decide (n = ['.']) || decide (n = ['.', '.'])

/-- `DirNode::create_node`: an occupied name fails `AlreadyExists`; a new
file or a new directory (whose parent back-reference is this node) is
inserted; any other requested type fails `Unsupported`. -/
def create_node (cs : Children) (name : Name) (ty : VfsNodeType) :
    Except VfsError Children :=
  if (getChild name cs).isSome then .error .AlreadyExists
  else
    match ty with
    | .File => .ok (insertChild name .file cs)
    | .Dir => .ok (insertChild name (.dir []) cs)
    | _ => .error .Unsupported

/-- `DirNode::remove_node`: an absent name fails `NotFound`; a directory
with a non-empty children map fails `DirectoryNotEmpty`; otherwise the
entry is erased. -/
def remove_node (cs : Children) (name : Name) : Except VfsError Children :=
  match getChild name cs with
  | none => .error .NotFound
  | some .file => .ok (eraseChild name cs)
  | some (.dir cs') =>
    if cs'.isEmpty then .ok (eraseChild name cs)
    else .error .DirectoryNotEmpty

/-- `DirNode::create`, descending over the component list; the result is
the updated root tree. -/
def createParts : Ctx → RamNode → List Name → VfsNodeType →
    Except VfsError RamNode
  | _, .file, _, _ => nonDirDefault
  | ctx, .dir cs, [], _ => .ok (plugAll ctx (.dir cs))
  | ctx, .dir cs, name :: rest, ty =>
    match rest with
    | _ :: _ =>
      if name = [] ∨ name = ['.'] then createParts ctx (.dir cs) rest ty
      else if name = ['.', '.'] then
        match ctx with
        | [] => .error .NotFound
        | f :: fs => createParts fs (plug1 f (.dir cs)) rest ty
      else
        match splitChildren name cs with
        | some (l, n, r) => createParts (⟨name, l, r⟩ :: ctx) n rest ty
        | none => .error .NotFound
    | [] =>
      if isSpecial name then .ok (plugAll ctx (.dir cs))
      else
        match create_node cs name ty with
        | .ok cs' => .ok (plugAll ctx (.dir cs'))
        | .error e => .error e

/-- `DirNode::create` on a path string. -/
def create (ctx : Ctx) (node : RamNode) (p : Path) (ty : VfsNodeType) :
    Except VfsError RamNode :=
  createParts ctx node (pathParts p) ty

/-- `DirNode::remove`, descending over the component list; the result is
the updated root tree. -/
def removeParts : Ctx → RamNode → List Name → Except VfsError RamNode
  | _, .file, _ => nonDirDefault
  | ctx, .dir cs, [] => .ok (plugAll ctx (.dir cs))
  | ctx, .dir cs, name :: rest =>
    match rest with
    | _ :: _ =>
      if name = [] ∨ name = ['.'] then removeParts ctx (.dir cs) rest
      else if name = ['.', '.'] then
        match ctx with
        | [] => .error .NotFound
        | f :: fs => removeParts fs (plug1 f (.dir cs)) rest
      else
        match splitChildren name cs with
        | some (l, n, r) => removeParts (⟨name, l, r⟩ :: ctx) n rest
        | none => .error .NotFound
    | [] =>
      if isSpecial name then .error .InvalidInput
      else
        match remove_node cs name with
        | .ok cs' => .ok (plugAll ctx (.dir cs'))
        | .error e => .error e

/-- `DirNode::remove` on a path string. -/
def remove (ctx : Ctx) (node : RamNode) (p : Path) : Except VfsError RamNode :=
  removeParts ctx node (pathParts p)

/-- A produced directory entry (`VfsDirEntry`): a name and a type. -/
structure VfsDirEntry where
  name : Name
  ty : VfsNodeType
deriving DecidableEq, Repr

/-- The entry written for a real child: its name and its attribute type. -/
def entryOf (kn : Name × RamNode) : VfsDirEntry :=
  ⟨kn.1, nodeTypeOf kn.2⟩

/-- The loop body of `DirNode::read_dir`: `pos` is the virtual position
`i + start_idx` and `fuel` the remaining output capacity; positions 0 and 1
produce the synthetic `"."` and `".."`, later positions consume the child
iterator, stopping early when it is exhausted. -/
def readDirLoop : Children → Nat → Nat → List VfsDirEntry
  | _, _, 0 => []
  | rest, pos, fuel + 1 =>
    if pos = 0 then ⟨['.'], .Dir⟩ :: readDirLoop rest 1 fuel
    else if pos = 1 then ⟨['.', '.'], .Dir⟩ :: readDirLoop rest 2 fuel
    else
      match rest with
      | [] => []
      | e :: rest' => entryOf e :: readDirLoop rest' (pos + 1) fuel

/-- `DirNode::read_dir`: skip `start_idx.max(2) - 2` children, then fill up
to `cap` entries starting at virtual position `start`; the returned list's
length is the count the source returns. -/
def read_dir (cs : Children) (start cap : Nat) : List VfsDirEntry :=
  readDirLoop (cs.drop (max start 2 - 2)) start cap

/-- `DirNode::rename` as implemented: split both paths into parent path and
leaf name but ignore the parent paths, remove the old leaf from the
invoking node's own children (`NotFound` when absent), and insert the node
back under the new leaf name in the same children map (replacing any entry
already stored there). -/
def rename (cs : Children) (old_path new_path : Path) :
    Except VfsError Children :=
  match split_parent old_path with
  | .error e => .error e
  | .ok (_, old_name) =>
    match split_parent new_path with
    | .error e => .error e
    | .ok (_, new_name) =>
      match getChild old_name cs with
      | none => .error .NotFound
      | some node => .ok (insertChild new_name node (eraseChild old_name cs))

/-- Whether a result is a success. -/
def isOkResult {α : Type} : Except VfsError α → Bool
  | .ok _ => true
  | .error _ => false

/-! Path-parser lemmas. -/

theorem partsAux_ne_nil (p : Path) : ∀ m : Option Name, partsAux m p ≠ [] := by
  induction p with
  | nil => intro m; cases m <;> simp [partsAux]
  | cons c r ih =>
    intro m
    cases m with
    | none =>
      by_cases h : c = '/' <;> simp only [partsAux, h, if_true, if_false] <;>
        first
          | exact ih none
          | exact ih (some [c])
    | some acc =>
      by_cases h : c = '/' <;> simp only [partsAux, h, if_true, if_false]
      · exact List.cons_ne_nil _ _
      · exact ih (some (c :: acc))

theorem pathParts_ne_nil (p : Path) : pathParts p ≠ [] :=
  partsAux_ne_nil p none

theorem partsAux_some (r : Path) : ∀ acc : Name,
    partsAux (some acc) r =
      (acc.reverse ++ (breakSlash r).1) ::
        (match (breakSlash r).2 with
          | none => []
          | some s => partsAux none s) := by
  induction r with
  | nil => intro acc; simp [partsAux, breakSlash]
  | cons c t ih =>
    intro acc
    by_cases h : c = '/'
    · simp [partsAux, breakSlash, h]
    · simp only [partsAux, breakSlash, h, if_false, if_neg h]
      rw [ih (c :: acc)]
      simp

theorem pathParts_split (p : Path) :
    pathParts p =
      (split_path p).1 ::
        (match (split_path p).2 with
          | none => []
          | some r => pathParts r) := by
  induction p with
  | nil => simp [pathParts, partsAux, split_path, skipSlashes, breakSlash]
  | cons c t ih =>
    by_cases h : c = '/'
    · subst h
      simpa [pathParts, partsAux, split_path, skipSlashes] using ih
    · simp [pathParts, split_path, skipSlashes, breakSlash, h, partsAux,
        partsAux_some]

theorem pathParts_of_split_none {p : Path} {name : Name}
    (hsplit : split_path p = (name, none)) : pathParts p = [name] := by
  rw [pathParts_split p, hsplit]

theorem pathParts_of_split_some {p : Path} {name : Name} {r : Path}
    (hsplit : split_path p = (name, some r)) :
    pathParts p = name :: pathParts r := by
  rw [pathParts_split p, hsplit]

theorem skipSlashes_of_head_ne {c : Char} (t : Path) (h : c ≠ '/') :
    skipSlashes (c :: t) = c :: t := by
  simp [skipSlashes, h]

theorem breakSlash_no_slash (l : Path) (h : '/' ∉ l) :
    breakSlash l = (l, none) := by
  induction l with
  | nil => rfl
  | cons c t ih =>
    have hc : c ≠ '/' := fun hc => h (hc ▸ List.mem_cons_self c t)
    have ht : '/' ∉ t := fun hm => h (List.mem_cons_of_mem c hm)
    simp [breakSlash, hc, ih ht]

theorem breakSlash_append_slash (l : Path) (s : Path) (h : '/' ∉ l) :
    breakSlash (l ++ '/' :: s) = (l, some s) := by
  induction l with
  | nil => simp [breakSlash]
  | cons c t ih =>
    have hc : c ≠ '/' := fun hc => h (hc ▸ List.mem_cons_self c t)
    have ht : '/' ∉ t := fun hm => h (List.mem_cons_of_mem c hm)
    simp [breakSlash, hc, ih ht]

theorem split_path_no_slash {name : Name} (hne : name ≠ [])
    (h : '/' ∉ name) : split_path name = (name, none) := by
  obtain ⟨c, t, rfl⟩ := List.exists_cons_of_ne_nil hne
  have hc : c ≠ '/' := fun hc => h (hc ▸ List.mem_cons_self c t)
  rw [split_path, skipSlashes_of_head_ne t hc, breakSlash_no_slash _ h]

theorem split_path_append_slash {name : Name} (s : Path) (hne : name ≠ [])
    (h : '/' ∉ name) : split_path (name ++ '/' :: s) = (name, some s) := by
  obtain ⟨c, t, rfl⟩ := List.exists_cons_of_ne_nil hne
  have hc : c ≠ '/' := fun hc => h (hc ▸ List.mem_cons_self c t)
  rw [List.cons_append, split_path, skipSlashes_of_head_ne _ hc,
    ← List.cons_append, breakSlash_append_slash _ _ h]

/-! Children-map lemmas. -/

theorem splitChildren_none_iff (k : Name) (cs : Children) :
    splitChildren k cs = none ↔ getChild k cs = none := by
  induction cs with
  | nil => simp [splitChildren, getChild]
  | cons e rest ih =>
    obtain ⟨k', v⟩ := e
    by_cases h : k' = k
    · simp [splitChildren, getChild, h]
    · simp only [splitChildren, getChild, h, if_neg h]
      cases hsc : splitChildren k rest with
      | none => simpa [hsc] using ih
      | some t =>
        obtain ⟨l, n, r⟩ := t
        simp only [hsc] at ih
        simp [← ih]

theorem splitChildren_some {k : Name} {cs : Children} {l : Children}
    {n : RamNode} {r : Children} (h : splitChildren k cs = some (l, n, r)) :
    getChild k cs = some n ∧ cs = l ++ (k, n) :: r := by
  induction cs generalizing l with
  | nil => simp [splitChildren] at h
  | cons e rest ih =>
    obtain ⟨k', v⟩ := e
    by_cases hk : k' = k
    · subst hk
      simp [splitChildren] at h
      obtain ⟨rfl, rfl, rfl⟩ := h
      simp [getChild]
    · simp only [splitChildren, if_neg hk] at h
      cases hsc : splitChildren k rest with
      | none => simp [hsc] at h
      | some t =>
        obtain ⟨l', n', r'⟩ := t
        rw [hsc] at h
        simp only [Option.some.injEq, Prod.mk.injEq] at h
        obtain ⟨h1, h2, h3⟩ := h
        subst h1; subst h2; subst h3
        obtain ⟨hg, hcs⟩ := ih hsc
        exact ⟨by simp [getChild, hk, hg], by simp [hcs]⟩

theorem getChild_some_split {k : Name} {cs : Children} {n : RamNode}
    (h : getChild k cs = some n) :
    ∃ l r, splitChildren k cs = some (l, n, r) := by
  induction cs with
  | nil => simp [getChild] at h
  | cons e rest ih =>
    obtain ⟨k', v⟩ := e
    by_cases hk : k' = k
    · subst hk
      simp [getChild] at h
      subst h
      exact ⟨[], rest, by simp [splitChildren]⟩
    · simp only [getChild, if_neg hk] at h
      obtain ⟨l, r, hsc⟩ := ih h
      exact ⟨(k', v) :: l, r, by simp [splitChildren, hk, hsc]⟩

theorem getChild_insertChild_self (k : Name) (v : RamNode) (cs : Children) :
    getChild k (insertChild k v cs) = some v := by
  induction cs with
  | nil => simp [insertChild, getChild]
  | cons e rest ih =>
    obtain ⟨k', v'⟩ := e
    by_cases h1 : ltName k k' = true
    · simp [insertChild, h1, getChild]
    · by_cases h2 : k = k'
      · subst h2
        simp [insertChild, h1, getChild]
      · have h2' : k' ≠ k := fun h => h2 h.symm
        simp [insertChild, h1, h2, getChild, h2', ih]

theorem isSpecial_eq_false_iff (n : Name) :
    isSpecial n = false ↔ n ≠ [] ∧ n ≠ ['.'] ∧ n ≠ ['.', '.'] := by
  simp [isSpecial, and_assoc]

/-! Unfolding each recursive operation by one `split_path` step, which is
exactly the recursion step of the source. -/

theorem resolveStep_self {name : Name} (ctx : Ctx) (cs : Children)
    (h : name = [] ∨ name = ['.']) :
    resolveStep ctx cs name = .ok (ctx, .dir cs) := by
  simp [resolveStep, h]

theorem resolveStep_dotdot_root (cs : Children) :
    resolveStep [] cs ['.', '.'] = .error .NotFound := by
  simp [resolveStep]

theorem resolveStep_dotdot (f : Frame) (fs : Ctx) (cs : Children) :
    resolveStep (f :: fs) cs ['.', '.'] = .ok (fs, plug1 f (.dir cs)) := by
  simp [resolveStep]

theorem resolveStep_child_absent {name : Name} (ctx : Ctx) (cs : Children)
    (h1 : ¬(name = [] ∨ name = ['.'])) (h2 : name ≠ ['.', '.'])
    (h : getChild name cs = none) :
    resolveStep ctx cs name = .error .NotFound := by
  simp [resolveStep, h1, h2, (splitChildren_none_iff name cs).mpr h]

theorem resolveStep_child {name : Name} (ctx : Ctx) (cs : Children)
    {l : Children} {n : RamNode} {r : Children}
    (h1 : ¬(name = [] ∨ name = ['.'])) (h2 : name ≠ ['.', '.'])
    (h : splitChildren name cs = some (l, n, r)) :
    resolveStep ctx cs name = .ok (⟨name, l, r⟩ :: ctx, n) := by
  simp [resolveStep, h1, h2, h]

theorem lookup_step (ctx : Ctx) (cs : Children) {p : Path} {name : Name}
    {rest : Option Path} (hsplit : split_path p = (name, rest)) :
    lookup ctx (.dir cs) p =
      match resolveStep ctx cs name with
      | .error e => .error e
      | .ok (ctx', n) => lookupRest ctx' n rest := by
  unfold lookup
  cases rest with
  | none =>
    rw [pathParts_of_split_none hsplit]
    cases hr : resolveStep ctx cs name with
    | error e => simp [lookupParts, hr]
    | ok pr =>
      obtain ⟨ctx', n⟩ := pr
      simp [lookupParts, hr, lookupRest]
  | some r =>
    rw [pathParts_of_split_some hsplit]
    cases hr : resolveStep ctx cs name with
    | error e => simp [lookupParts, hr]
    | ok pr =>
      obtain ⟨ctx', n⟩ := pr
      cases hpp : pathParts r with
      | nil => exact absurd hpp (pathParts_ne_nil r)
      | cons a as =>
        simp [lookupParts, hr, hpp, lookupRest, lookup]

/-- C4: `lookup` resolves the first path component as: the empty string or
`"."` yields the node itself; `".."` yields the parent, failing `NotFound`
when there is none (in particular `lookup("..")` on the root fails
`NotFound`); any other name yields the matching child, failing `NotFound`
when absent; when a remainder exists, `lookup` recurses on the resolved
node with the remainder (`lookupRest` with `some`), otherwise the resolved
node is the result (`lookupRest` with `none`); hence `lookup(".")` on any
node returns that same node. -/
theorem lookup_first_component_cases (ctx : Ctx) (cs : Children) (p : Path)
    (name : Name) (rest : Option Path)
    (hsplit : split_path p = (name, rest)) :
    ((name = [] ∨ name = ['.']) →
        lookup ctx (.dir cs) p = lookupRest ctx (.dir cs) rest)
  ∧ (name = ['.', '.'] → ctx = [] →
        lookup ctx (.dir cs) p = .error .NotFound)
  ∧ (∀ f fs, name = ['.', '.'] → ctx = f :: fs →
        lookup ctx (.dir cs) p = lookupRest fs (plug1 f (.dir cs)) rest)
  ∧ (name ≠ [] → name ≠ ['.'] → name ≠ ['.', '.'] →
        getChild name cs = none →
        lookup ctx (.dir cs) p = .error .NotFound)
  ∧ (∀ n, name ≠ [] → name ≠ ['.'] → name ≠ ['.', '.'] →
        getChild name cs = some n →
        ∃ l r, cs = l ++ (name, n) :: r ∧
          lookup ctx (.dir cs) p = lookupRest (⟨name, l, r⟩ :: ctx) n rest)
  ∧ lookup ctx (.dir cs) ['.'] = .ok (ctx, .dir cs)
  ∧ lookup [] (.dir cs) ['.', '.'] = .error .NotFound := by
  refine ⟨?_, ?_, ?_, ?_, ?_, rfl, rfl⟩
  · intro h
    rw [lookup_step ctx cs hsplit, resolveStep_self ctx cs h]
  · intro h hctx
    subst h; subst hctx
    rw [lookup_step [] cs hsplit, resolveStep_dotdot_root cs]
  · intro f fs h hctx
    subst h; subst hctx
    rw [lookup_step (f :: fs) cs hsplit, resolveStep_dotdot f fs cs]
  · intro h1 h2 h3 habs
    rw [lookup_step ctx cs hsplit,
      resolveStep_child_absent ctx cs (by tauto) h3 habs]
  · intro n h1 h2 h3 hget
    obtain ⟨l, r, hsc⟩ := getChild_some_split hget
    refine ⟨l, r, (splitChildren_some hsc).2, ?_⟩
    rw [lookup_step ctx cs hsplit, resolveStep_child ctx cs (by tauto) h3 hsc]

/-- Witness for C4 at a concrete input: looking up a missing name in an
empty root directory fails `NotFound`. -/
theorem lookup_first_component_cases_witness :
    lookup [] (.dir []) ['a'] = .error .NotFound := by
  obtain ⟨-, -, -, h4, -⟩ :=
    lookup_first_component_cases [] [] ['a'] ['a'] none rfl
  exact h4 (by decide) (by decide) (by decide) rfl

/-- C5: at the leaf step of `remove` (a path whose `split_path` has no
remainder), an empty, `"."` or `".."` leaf name fails `InvalidInput`;
otherwise `remove_node` decides: an absent name fails `NotFound`, a
directory with a non-empty children map fails `DirectoryNotEmpty`, and
otherwise the entry is erased from the children map; each failing case
returns an error and produces no updated tree, so the children map is
unchanged. -/
theorem remove_leaf_cases (ctx : Ctx) (cs : Children) (p : Path)
    (name : Name) (hsplit : split_path p = (name, none)) :
    (isSpecial name = true →
        remove ctx (.dir cs) p = .error .InvalidInput)
  ∧ (isSpecial name = false → getChild name cs = none →
        remove ctx (.dir cs) p = .error .NotFound)
  ∧ (∀ cs', isSpecial name = false → getChild name cs = some (.dir cs') →
        cs' ≠ [] → remove ctx (.dir cs) p = .error .DirectoryNotEmpty)
  ∧ (isSpecial name = false → getChild name cs = some .file →
        remove ctx (.dir cs) p = .ok (plugAll ctx (.dir (eraseChild name cs))))
  ∧ (isSpecial name = false → getChild name cs = some (.dir []) →
        remove ctx (.dir cs) p =
          .ok (plugAll ctx (.dir (eraseChild name cs)))) := by
  have hp : remove ctx (.dir cs) p = removeParts ctx (.dir cs) [name] := by
    rw [remove, pathParts_of_split_none hsplit]
  refine ⟨?_, ?_, ?_, ?_, ?_⟩
  · intro h
    rw [hp]; simp [removeParts, h]
  · intro h habs
    rw [hp]; simp [removeParts, h, remove_node, habs]
  · intro cs' h hget hne
    rw [hp]
    cases cs' with
    | nil => exact absurd rfl hne
    | cons e t => simp [removeParts, h, remove_node, hget, List.isEmpty]
  · intro h hget
    rw [hp]; simp [removeParts, h, remove_node, hget]
  · intro h hget
    rw [hp]; simp [removeParts, h, remove_node, hget, List.isEmpty]

/-- Witness for C5 at a concrete input: removing a directory that still
has a child fails `DirectoryNotEmpty`. -/
theorem remove_leaf_cases_witness :
    remove [] (.dir [(['d'], .dir [(['x'], .file)])]) ['d'] =
      .error .DirectoryNotEmpty := by
  obtain ⟨-, -, h3, -⟩ :=
    remove_leaf_cases [] [(['d'], .dir [(['x'], .file)])] ['d'] ['d'] rfl
  exact h3 [(['x'], .file)] rfl rfl (by simp)

/-- C6: `create_node` fails `AlreadyExists` when the name is occupied
(returning an error, so the map and its stored node are untouched); for a
free name it fails `Unsupported` for a type that is neither `File` nor
`Dir`, inserting nothing, and otherwise inserts a new file or a new empty
directory; the new directory's parent back-reference is the invoking node:
from the invoking directory, looking up `name/..` in the updated tree
comes back to the invoking directory itself. -/
theorem create_node_cases (cs : Children) (name : Name) (ty : VfsNodeType) :
    (∀ n, getChild name cs = some n →
        create_node cs name ty = .error .AlreadyExists ∧
          getChild name cs = some n)
  ∧ (getChild name cs = none → ty ≠ .File → ty ≠ .Dir →
        create_node cs name ty = .error .Unsupported)
  ∧ (getChild name cs = none →
        create_node cs name .File = .ok (insertChild name .file cs))
  ∧ (getChild name cs = none →
        create_node cs name .Dir = .ok (insertChild name (.dir []) cs))
  ∧ (∀ ctx, getChild name cs = none → isSpecial name = false →
        '/' ∉ name →
        lookup ctx (.dir (insertChild name (.dir []) cs))
            (name ++ ['/', '.', '.']) =
          .ok (ctx, .dir (insertChild name (.dir []) cs))) := by
  refine ⟨?_, ?_, ?_, ?_, ?_⟩
  · intro n h
    exact ⟨by simp [create_node, h], h⟩
  · intro habs hf hd
    cases ty <;> simp [create_node, habs] <;> first | rfl | tauto
  · intro habs
    simp [create_node, habs]
  · intro habs
    simp [create_node, habs]
  · intro ctx habs hs hslash
    obtain ⟨hne, hdot, hdd⟩ := (isSpecial_eq_false_iff name).mp hs
    have h1 : ¬(name = [] ∨ name = ['.']) := by tauto
    have hget : getChild name (insertChild name (.dir []) cs) =
        some (.dir []) := getChild_insertChild_self name (.dir []) cs
    obtain ⟨l, r, hsc⟩ := getChild_some_split hget
    have hcs' : insertChild name (.dir []) cs = l ++ (name, .dir []) :: r :=
      (splitChildren_some hsc).2
    have hsplit2 : split_path (name ++ ['/', '.', '.']) =
        (name, some ['.', '.']) :=
      split_path_append_slash ['.', '.'] hne hslash
    have hplug : plug1 ⟨name, l, r⟩ (.dir []) =
        .dir (insertChild name (.dir []) cs) := by
      rw [plug1]
      exact congrArg RamNode.dir hcs'.symm
    calc lookup ctx (.dir (insertChild name (.dir []) cs))
          (name ++ ['/', '.', '.'])
        = lookupRest (⟨name, l, r⟩ :: ctx) (.dir []) (some ['.', '.']) := by
          rw [lookup_step ctx (insertChild name (.dir []) cs) hsplit2,
            resolveStep_child ctx (insertChild name (.dir []) cs) h1 hdd hsc]
      _ = .ok (ctx, plug1 ⟨name, l, r⟩ (.dir [])) := rfl
      _ = .ok (ctx, .dir (insertChild name (.dir []) cs)) := by rw [hplug]

/-- Witness for C6 at a concrete input: after creating directory `a` in an
empty directory, `lookup("a/..")` returns the invoking directory. -/
theorem create_node_cases_witness :
    lookup [] (.dir [(['a'], .dir [])]) ['a', '/', '.', '.'] =
      .ok ([], .dir [(['a'], .dir [])]) := by
  obtain ⟨-, -, -, -, h5⟩ := create_node_cases [] ['a'] .Dir
  exact h5 [] rfl rfl (by decide)

/-- C7: during descent of `create`, an intermediate component other than
`""`, `"."` and `".."` must name an existing child and fails `NotFound`
when it is missing (intermediate directories are never created); a leaf
name of `""`, `"."` or `".."` returns success with the tree unchanged. -/
theorem create_descent_cases (ctx : Ctx) (cs : Children) (p : Path)
    (name : Name) (ty : VfsNodeType) :
    (∀ r, split_path p = (name, some r) → isSpecial name = false →
        getChild name cs = none →
        create ctx (.dir cs) p ty = .error .NotFound)
  ∧ (split_path p = (name, none) → isSpecial name = true →
        create ctx (.dir cs) p ty = .ok (plugAll ctx (.dir cs))) := by
  constructor
  · intro r hsplit hs habs
    obtain ⟨hne, hdot, hdd⟩ := (isSpecial_eq_false_iff name).mp hs
    rw [create, pathParts_of_split_some hsplit]
    cases hpp : pathParts r with
    | nil => exact absurd hpp (pathParts_ne_nil r)
    | cons a as =>
      have hsc : splitChildren name cs = none :=
        (splitChildren_none_iff name cs).mpr habs
      simp [createParts, hne, hdot, hdd, hsc]
  · intro hsplit hs
    rw [create, pathParts_of_split_none hsplit]
    simp [createParts, hs]

/-- Witness for C7 at a concrete input: `create("a/b")` in an empty
directory fails `NotFound` because intermediate `a` does not exist. -/
theorem create_descent_cases_witness :
    create [] (.dir []) ['a', '/', 'b'] .File = .error .NotFound := by
  obtain ⟨h1, -⟩ := create_descent_cases [] [] ['a', '/', 'b'] ['a'] .File
  exact h1 ['b'] rfl rfl rfl

/-! `read_dir` lemmas. -/

theorem readDirLoop_length (fuel : Nat) : ∀ (rest : Children) (pos : Nat),
    (readDirLoop rest pos fuel).length = min fuel (2 - pos + rest.length) := by
  induction fuel with
  | zero => intro rest pos; simp [readDirLoop]
  | succ n ih =>
    intro rest pos
    by_cases h0 : pos = 0
    · subst h0
      simp [readDirLoop, ih]
      omega
    · by_cases h1 : pos = 1
      · subst h1
        simp [readDirLoop, ih]
        omega
      · cases rest with
        | nil =>
          simp [readDirLoop, h0, h1]
          omega
        | cons e t =>
          simp [readDirLoop, h0, h1, ih]
          omega

theorem readDirLoop_full (rest : Children) : ∀ (pos fuel : Nat), 2 ≤ pos →
    rest.length ≤ fuel → readDirLoop rest pos fuel = rest.map entryOf := by
  induction rest with
  | nil =>
    intro pos fuel h2 _
    have hp0 : pos ≠ 0 := by omega
    have hp1 : pos ≠ 1 := by omega
    cases fuel with
    | zero => rfl
    | succ n => simp [readDirLoop, hp0, hp1]
  | cons e t ih =>
    intro pos fuel h2 hlen
    have hp0 : pos ≠ 0 := by omega
    have hp1 : pos ≠ 1 := by omega
    cases fuel with
    | zero => simp at hlen
    | succ n =>
      simp only [readDirLoop, if_neg hp0, if_neg hp1, List.map_cons]
      rw [ih (pos + 1) n (by omega) (by simpa using hlen)]

/-- C8: `read_dir` fills entries from the virtual sequence whose positions
0 and 1 are the synthetic `"."` and `".."` (both typed `Dir`) followed by
the real children in map order: it writes `capacity` entries when that
many remain from `start`, and otherwise writes the smaller remaining
count; the listing started at index 2 is exactly the tail of the listing
started at index 0 past the two synthetic entries. -/
theorem read_dir_pagination (cs : Children) (start cap : Nat) :
    (read_dir cs start cap).length = min cap (2 + cs.length - start)
  ∧ read_dir cs 2 cap = (read_dir cs 0 (cap + 2)).drop 2
  ∧ (2 + cs.length ≤ cap →
        read_dir cs 0 cap =
          ⟨['.'], .Dir⟩ :: ⟨['.', '.'], .Dir⟩ :: cs.map entryOf) := by
  refine ⟨?_, ?_, ?_⟩
  · rw [read_dir, readDirLoop_length cap _ start, List.length_drop]
    omega
  · have h2 : read_dir cs 0 (cap + 2) =
        ⟨['.'], .Dir⟩ :: ⟨['.', '.'], .Dir⟩ :: readDirLoop cs 2 cap := by
      rw [read_dir]
      simp [readDirLoop]
    rw [read_dir, h2]
    simp
  · intro hcap
    obtain ⟨m, rfl⟩ : ∃ m, cap = m + 2 := ⟨cap - 2, by omega⟩
    have h0 : read_dir cs 0 (m + 2) =
        ⟨['.'], .Dir⟩ :: ⟨['.', '.'], .Dir⟩ :: readDirLoop cs 2 m := by
      rw [read_dir]
      simp [readDirLoop]
    rw [h0, readDirLoop_full cs 2 m (by omega) (by omega)]

/-- Witness for C8 at a concrete input: listing one child from index 0
with capacity 3 yields `"."`, `".."`, then the child. -/
theorem read_dir_pagination_witness :
    read_dir [(['a'], .file)] 0 3 =
      [⟨['.'], .Dir⟩, ⟨['.', '.'], .Dir⟩, ⟨['a'], .File⟩] := by
  obtain ⟨-, -, h3⟩ := read_dir_pagination [(['a'], .file)] 0 3
  simpa [entryOf, nodeTypeOf, fileAttrKind] using h3 (by decide)

/-! Evaluations of the implemented `rename` exhibiting its divergence from
the intended contract (spec section 4.6, flagged in section 9). -/

/-- C1: in the root tree `{a: dir {f: file}, b: dir {}}` the source path
`/a/f` resolves to an existing leaf and the destination leaf `g` is free
in `/b`, yet `rename("/a/f", "/b/g")` invoked on the root returns
`NotFound`: the implementation drops both parent-path components and looks
for the leaf `f` among the root's own children instead of inside `/a`, so
no cross-directory move (and no parent back-reference update) ever
happens. -/
theorem rename_cross_directory_code_result :
    isOkResult (lookup []
        (.dir [(['a'], .dir [(['f'], .file)]), (['b'], .dir [])])
        ['/', 'a', '/', 'f']) = true
  ∧ lookup [] (.dir [(['a'], .dir [(['f'], .file)]), (['b'], .dir [])])
        ['/', 'b', '/', 'g'] = .error .NotFound
  ∧ rename [(['a'], .dir [(['f'], .file)]), (['b'], .dir [])]
        ['/', 'a', '/', 'f'] ['/', 'b', '/', 'g'] = .error .NotFound :=
  ⟨rfl, rfl, rfl⟩

/-- C2: with the root children `{x: file, y: dir {}}`, the destination
leaf `y` of `rename("/x", "/y")` is already occupied, yet the call
succeeds: the source entry `x` is removed and the existing destination
node (a directory) is silently replaced by `x`'s node, instead of failing
`AlreadyExists` with the source retained. -/
theorem rename_occupied_destination_code_result :
    rename [(['x'], .file), (['y'], .dir [])] ['/', 'x'] ['/', 'y'] =
      .ok [(['y'], .file)] :=
  rfl

/-- C3: starting from an empty root, the public sequence
`create("/a", File)` then `rename("/a", "/.")` stores the key `"."` in the
root's children map: `split_parent("/.")` yields leaf name `"."` and
`rename` inserts it without filtering the synthetic names, violating the
invariant that `"."` and `".."` are never stored keys. -/
theorem rename_stores_dot_key :
    create [] (.dir []) ['/', 'a'] .File = .ok (.dir [(['a'], .file)])
  ∧ split_parent ['/', '.'] = .ok (['/'], ['.'])
  ∧ rename [(['a'], .file)] ['/', 'a'] ['/', '.'] = .ok [(['.'], .file)]
  ∧ getChild ['.'] [(['.'], .file)] = some .file :=
  ⟨rfl, rfl, rfl, rfl⟩

/-- C9 counterexample: the claim predicts that for `"//a"` the first
component is empty with remainder `"a"`; the code trims every leading
slash, so `split_path("//a")` is `("a", no remainder)`. -/
theorem split_path_double_slash_cex :
    split_path ['/', '/', 'a'] = (['a'], none)
  ∧ split_path ['/', '/', 'a'] ≠ (([] : Name), some ['a']) :=
  ⟨rfl, by decide⟩

/-- C9 amended: `split_path` trims ALL leading `'/'` characters (not
exactly one) and then splits at the first remaining `'/'`, returning the
text before it and the text after it, or the whole trimmed text with an
absent remainder when no `'/'` remains; so for `"//a"` the first component
is `"a"` with no remainder. -/
theorem split_path_trims_all_leading_slashes (p : Path) :
    split_path p =
      ((p.dropWhile (fun c => decide (c = '/'))).takeWhile
          (fun c => !decide (c = '/')),
        match (p.dropWhile (fun c => decide (c = '/'))).dropWhile
            (fun c => !decide (c = '/')) with
        | [] => none
        | _ :: s => some s) := by
  have hskip : ∀ q : Path,
      skipSlashes q = q.dropWhile (fun c => decide (c = '/')) := by
    intro q
    induction q with
    | nil => rfl
    | cons c t ih =>
      by_cases h : c = '/'
      · simp [skipSlashes, h, List.dropWhile, ih]
      · simp [skipSlashes, h, List.dropWhile]
  have hbreak : ∀ t : Path,
      breakSlash t =
        (t.takeWhile (fun c => !decide (c = '/')),
          match t.dropWhile (fun c => !decide (c = '/')) with
          | [] => none
          | _ :: s => some s) := by
    intro t
    induction t with
    | nil => rfl
    | cons c r ih =>
      by_cases h : c = '/'
      · simp [breakSlash, h, List.takeWhile, List.dropWhile]
      · simp [breakSlash, h, List.takeWhile, List.dropWhile, ih]
  rw [split_path, hskip p, hbreak]

/-- C10 counterexample: in the root tree `{t: dir {f: file}}` the entry at
`/t/f` exists and is removable (the call without the trailing slash
succeeds), but `remove("/t/f/")` fails with `NotADirectory`, not
`InvalidInput`: the trailing slash makes the descent treat the file `f` as
an intermediate directory. -/
theorem remove_trailing_slash_file_cex :
    remove [] (.dir [(['t'], .dir [(['f'], .file)])])
        ['/', 't', '/', 'f', '/'] = .error .NotADirectory
  ∧ VfsError.NotADirectory ≠ VfsError.InvalidInput
  ∧ remove [] (.dir [(['t'], .dir [(['f'], .file)])]) ['/', 't', '/', 'f'] =
      .ok (.dir [(['t'], .dir [])]) :=
  ⟨rfl, by decide, rfl⟩

/-- C10 amended: `remove` on a path with a trailing `'/'` always fails,
but the error depends on the named entry: for a directory entry the final
split produces an empty leaf component one level down and the call fails
`InvalidInput`; for a file entry the descent treats the file as a
directory and fails `NotADirectory`; the same call without the trailing
`'/'` can succeed (for a file it does). -/
theorem remove_trailing_slash_cases (ctx : Ctx) (cs : Children)
    (name : Name) (hspec : isSpecial name = false) (hslash : '/' ∉ name) :
    (∀ cs', getChild name cs = some (.dir cs') →
        remove ctx (.dir cs) (name ++ ['/']) = .error .InvalidInput)
  ∧ (getChild name cs = some .file →
        remove ctx (.dir cs) (name ++ ['/']) = .error .NotADirectory)
  ∧ (getChild name cs = some .file →
        remove ctx (.dir cs) name =
          .ok (plugAll ctx (.dir (eraseChild name cs)))) := by
  obtain ⟨hne, hdot, hdd⟩ := (isSpecial_eq_false_iff name).mp hspec
  have hsplit : split_path (name ++ ['/']) = (name, some []) :=
    split_path_append_slash [] hne hslash
  have hparts : pathParts (name ++ ['/']) = [name, []] :=
    pathParts_of_split_some hsplit
  refine ⟨?_, ?_, ?_⟩
  · intro cs' hget
    obtain ⟨l, r, hsc⟩ := getChild_some_split hget
    rw [remove, hparts]
    simp [removeParts, hne, hdot, hdd, hsc, isSpecial]
  · intro hget
    obtain ⟨l, r, hsc⟩ := getChild_some_split hget
    rw [remove, hparts]
    simp [removeParts, hne, hdot, hdd, hsc, nonDirDefault]
  · intro hget
    rw [remove, pathParts_of_split_none (split_path_no_slash hne hslash)]
    simp [removeParts, hspec, remove_node, hget]

/-- Witness for the amended C10 at a concrete input: removing `"f/"` when
`f` is a file fails `NotADirectory`. -/
theorem remove_trailing_slash_cases_witness :
    remove [] (.dir [(['f'], .file)]) ['f', '/'] = .error .NotADirectory := by
  obtain ⟨-, h2, -⟩ :=
    remove_trailing_slash_cases [] [(['f'], .file)] ['f'] rfl (by decide)
  exact h2 rfl

end RamFs
